import Mathlib

/-!
Shallow embedding of `src/jenks.rs` from the `classify` repository
(Jenks Natural Breaks classification).

Modelling conventions:
* `f64` data values are modelled as exact rationals (`ℚ`); all claims are
  about the algorithm on finite numeric data, with arithmetic exact.
* `usize` arithmetic is `ℕ`, with the one wrapping subtraction that matters
  (`num_vals - 1` in `pick_rand_breaks`) modelled explicitly with release-mode
  wrap-around semantics (`usizeSub1`).
* The `StdRng` pseudo-random generator is abstracted as an entropy stream
  `ℕ → ℕ`: the i-th draw of `gen_range(lo..hi)` maps the i-th stream word into
  `[lo, hi)`.  The stream that the program actually uses is the one produced by
  `StdRng::seed_from_u64(123456789)`, a fixed function of nothing; theorems
  quantify over the stream.
* The rejection-sampling `while` loop of `pick_rand_breaks` has no bound in the
  source; the embedding gives it fuel and returns `Except` — `.error .outOfFuel`
  is the embedding artifact for non-termination, `.error .emptyRange` models the
  `gen_range` panic on an empty range.
* `create_unique_val_mapping` and `unique_to_normal_breaks` live in the
  repository's `utilities.rs`, which is not among the provided sources; they are
  modelled from the spec (see their doc comments).
-/

set_option linter.unusedVariables false

namespace Classify

/-- Abstraction of the `StdRng` stream: the i-th raw entropy word. -/
abbrev Rng := ℕ → ℕ

/-- Model of `rand`'s `gen_range(lo..hi)` driven by one entropy word `e`:
a value in `[lo, hi)`, or `none` (the panic on an empty range). -/
def gen_range (lo hi e : ℕ) : Option ℕ :=
  if lo < hi then some (lo + e % (hi - lo)) else none

/-- `usize` wrapping subtraction of one (release-mode semantics), faithful for
arguments below `2 ^ 64`. -/
def usizeSub1 (n : ℕ) : ℕ :=
  if n = 0 then 2 ^ 64 - 1 else n - 1

/-- Failure modes of the sampling loop: `emptyRange` models the `gen_range`
panic, `outOfFuel` is the embedding's stand-in for non-termination. -/
inductive PickErr where
  | emptyRange
  | outOfFuel
deriving DecidableEq

/-- The `while set.len() < num_breaks` rejection-sampling loop of
`pick_rand_breaks`: draw `gen_range(1..num_vals)` and insert into the set until
it reaches `target` elements.  `i` is the position in the entropy stream. -/
def pickLoop (rng : Rng) (num_vals target : ℕ) :
    ℕ → ℕ → Finset ℕ → Except PickErr (Finset ℕ × ℕ)
  | 0, i, s =>
    if target ≤ s.card then .ok (s, i) else .error .outOfFuel
  | f + 1, i, s =>
    if target ≤ s.card then .ok (s, i)
    else
      match gen_range 1 num_vals (rng i) with
      | none => .error .emptyRange
      | some v => pickLoop rng num_vals target f (i + 1) (insert v s)

/-- Embedding of `pick_rand_breaks` (`jenks.rs` lines 126-141).  The source
mutates `breaks` in place; here the final contents are returned together with
the advanced stream position.  The early `return` on
`num_breaks > num_vals - 1` leaves `breaks` unchanged; otherwise the sampled
set is written out and sorted, i.e. the result is the sorted list of the set's
elements. -/
def pick_rand_breaks (breaks : List ℕ) (num_vals : ℕ) (rng : Rng) (fuel i : ℕ) :
    Except PickErr (List ℕ × ℕ) :=
  let num_breaks := breaks.length
  if num_breaks > usizeSub1 num_vals then .ok (breaks, i)
  else
    match pickLoop rng num_vals num_breaks fuel i ∅ with
    | .error e => .error e
    | .ok (s, j) => .ok (s.sort (· ≤ ·), j)

/-- One run of equal values in the sorted data (`utilities.rs` `UniqueVal`). -/
structure UniqueVal where
  val : ℚ
  first_idx : ℕ
  cnt : ℕ
deriving DecidableEq

/-- Modelled from the spec: `create_unique_val_mapping` (in the repository's
`utilities.rs`, which is not among the provided sources) collapses the sorted
data into its runs of equal values, producing for each distinct value the
value, the index of its first occurrence in the sorted data, and the run
length; runs are ordered ascending by value. -/
def create_unique_val_mapping (sorted_data : List ℚ) : List UniqueVal :=
  sorted_data.dedup.map (fun v =>
    ⟨v, sorted_data.indexOf v, sorted_data.count v⟩)

/-- Modelled from the spec: `unique_to_normal_breaks` (in the repository's
`utilities.rs`, which is not among the provided sources) translates break
indices in unique-value space into indices into the full sorted data:
`normal_break[i] = unique_val_map[unique_break[i]].first_idx`. -/
def unique_to_normal_breaks (ubreaks : List ℕ) (uvm : List UniqueVal) : List ℕ :=
  ubreaks.map (fun u => (uvm.getD u ⟨0, 0, 0⟩).first_idx)

/-- Embedding of `calc_gssd` (`jenks.rs` lines 181-201): mean of all values,
then the sum of squared differences from that mean.  (The source also computes
`max_val`, which is dead code and does not influence the result.) -/
def calc_gssd (data : List ℚ) : ℚ :=
  let num_vals := data.length
  let mean := data.sum / (num_vals : ℚ)
  (data.map (fun v => (v - mean) * (v - mean))).sum

/-- Embedding of `calc_gvf` (`jenks.rs` lines 150-174).  The loop
`for i in 0..num_bins` accumulating `tssd` is rendered as the sum over
`List.range num_bins`; `vals.iter().take(upper).skip(lower)` is
`(vals.take upper).drop lower`. -/
def calc_gvf (breaks : List ℕ) (vals : List ℚ) (gssd : ℚ) : ℚ :=
  let num_vals := vals.length
  let num_bins := breaks.length + 1
  let tssd := ((List.range num_bins).map (fun i =>
    let lower := if i = 0 then 0 else breaks.getD (i - 1) 0
    let upper := if i = num_bins - 1 then num_vals else breaks.getD i 0
    let seg := (vals.take upper).drop lower
    let mean := seg.sum / ((upper - lower : ℕ) : ℚ)
    (seg.map (fun x => (x - mean) * (x - mean))).sum)).sum
  1 - tssd / gssd

/-- State of the search loop of `get_jenks_breaks` (`jenks.rs` lines 81-107).
`gvf_gssd_args` instruments the run with the list of `gssd` arguments passed to
`calc_gvf`, one per loop iteration; it does not influence the computation. -/
structure JenksState where
  unique_rand_breaks : List ℕ
  rand_breaks : List ℕ
  best_breaks : List ℕ
  max_gvf : ℚ
  rng_ix : ℕ
  gvf_gssd_args : List ℚ

/-- One iteration of the search loop (`jenks.rs` lines 99-107): sample unique
breaks, translate to normal breaks, score, and keep the best so far.  The
source's `best_breaks[..rand_breaks.len()].copy_from_slice(&rand_breaks[..])`
overwrites the length-`rand_breaks.len()` front of `best_breaks`. -/
def jenksStep (rng : Rng) (num_unique_vals : ℕ) (uvm : List UniqueVal)
    (sorted_data : List ℚ) (gssd : ℚ) (fuel : ℕ) (s : JenksState) :
    Except PickErr JenksState :=
  match pick_rand_breaks s.unique_rand_breaks num_unique_vals rng fuel s.rng_ix with
  | .error e => .error e
  | .ok (u, j) =>
    if calc_gvf (unique_to_normal_breaks u uvm) sorted_data gssd > s.max_gvf then
      .ok
        { unique_rand_breaks := u
          rand_breaks := unique_to_normal_breaks u uvm
          best_breaks := unique_to_normal_breaks u uvm
            ++ s.best_breaks.drop (unique_to_normal_breaks u uvm).length
          max_gvf := calc_gvf (unique_to_normal_breaks u uvm) sorted_data gssd
          rng_ix := j
          gvf_gssd_args := s.gvf_gssd_args ++ [gssd] }
    else
      .ok
        { s with
          unique_rand_breaks := u
          rand_breaks := unique_to_normal_breaks u uvm
          rng_ix := j
          gvf_gssd_args := s.gvf_gssd_args ++ [gssd] }

/-- The `for _ in 0..permutations` loop of `get_jenks_breaks`. -/
def jenksLoop (rng : Rng) (num_unique_vals : ℕ) (uvm : List UniqueVal)
    (sorted_data : List ℚ) (gssd : ℚ) (fuel : ℕ) :
    ℕ → JenksState → Except PickErr JenksState
  | 0, s => .ok s
  | n + 1, s =>
    match jenksStep rng num_unique_vals uvm sorted_data gssd fuel s with
    | .error e => .error e
    | .ok s2 => jenksLoop rng num_unique_vals uvm sorted_data gssd fuel n s2

/-- Trial count (`jenks.rs` lines 87-94): `5000 * 2200 * 4 / num_vals`,
clamped to `[10, 10000]`. -/
def permutationsFor (num_vals : ℕ) : ℕ :=
  let c := 5000 * 2200 * 4
  let p := c / num_vals
  let p := if p < 10 then 10 else p
  if p > 10000 then 10000 else p

/-- The sorted copy built at `jenks.rs` lines 67-71
(`sort_by(partial_cmp)` on finite values is an ordinary ascending sort). -/
def jenksSorted (data : List ℚ) : List ℚ :=
  List.insertionSort (· ≤ ·) data

/-- Initial loop state (`jenks.rs` lines 81-85): the three break vectors are
`vec![0; true_num_bins - 1]` and `max_gvf = 0.0`. -/
def jenksInitState (n : ℕ) : JenksState :=
  { unique_rand_breaks := List.replicate n 0
    rand_breaks := List.replicate n 0
    best_breaks := List.replicate n 0
    max_gvf := 0
    rng_ix := 0
    gvf_gssd_args := [] }

/-- Embedding of the body of `get_jenks_breaks` (`jenks.rs` lines 64-117)
up to and including the search loop, returning the final loop state. -/
def jenksRun (num_bins : ℕ) (data : List ℚ) (rng : Rng) (fuel : ℕ) :
    Except PickErr JenksState :=
  let sorted_data := jenksSorted data
  let uvm := create_unique_val_mapping sorted_data
  let num_unique_vals := uvm.length
  let true_num_bins := min num_unique_vals num_bins
  let gssd := calc_gssd sorted_data
  jenksLoop rng num_unique_vals uvm sorted_data gssd fuel
    (permutationsFor data.length) (jenksInitState (true_num_bins - 1))

/-- Embedding of `get_jenks_breaks` (`jenks.rs` lines 64-117): the final
`nat_breaks`, i.e. `sorted_data[best_breaks[i]]` for each `i`. -/
def get_jenks_breaks (num_bins : ℕ) (data : List ℚ) (rng : Rng) (fuel : ℕ) :
    Except PickErr (List ℚ) :=
  (jenksRun num_bins data rng fuel).map fun s =>
    s.best_breaks.map (fun b => (jenksSorted data).getD b 0)

/-- Instrumented view of the same run: the list of `gssd` arguments passed to
`calc_gvf`, one per executed search-loop iteration. -/
def jenks_gssd_args (num_bins : ℕ) (data : List ℚ) (rng : Rng) (fuel : ℕ) :
    Except PickErr (List ℚ) :=
  (jenksRun num_bins data rng fuel).map fun s => s.gvf_gssd_args

/-- Number of unique values of a dataset, as the program computes it:
the length of the unique-value mapping of the sorted data. -/
def uniqueCount (data : List ℚ) : ℕ :=
  (create_unique_val_mapping (jenksSorted data)).length

/-- All observations of the dataset are the same value. -/
def allEqual (data : List ℚ) : Prop :=
  ∀ x ∈ data, ∀ y ∈ data, x = y

instance (data : List ℚ) : Decidable (allEqual data) := by
  unfold allEqual; infer_instance

/-! ### Spec-side formulation of the GVF computation (for the refinement claim)

The spec describes `goodness_of_variance_fit` in terms of partitions: partition
`i` spans `[boundaries[i-1], boundaries[i])` with `boundary[-1] = 0` and
`boundary[k-1] = n`; each partition contributes the sum of squared deviations
from its own mean, and the result is `1 - total_ssd / global_ssd`. -/

/-- Mean of a list of rationals. -/
def lmean (l : List ℚ) : ℚ := l.sum / (l.length : ℚ)

/-- Sum of squared deviations of a list about a point `m`. -/
def ssdAbout (l : List ℚ) (m : ℚ) : ℚ :=
  (l.map (fun x => (x - m) * (x - m))).sum

/-- The contiguous partitions of `vals` determined by ascending boundary
indices, starting at position `lo`: following the spec's convention, boundary
`b` ends the current partition at `[lo, b)` and the partition after the last
boundary runs to the end of the data. -/
def jenksPartitions (vals : List ℚ) : ℕ → List ℕ → List (List ℚ)
  | lo, [] => [vals.drop lo]
  | lo, b :: bs => (vals.take b).drop lo :: jenksPartitions vals b bs

/-- The spec's formulation of `goodness_of_variance_fit`: sum each partition's
sum of squared deviations about that partition's mean into `total_ssd` and
return `1 - total_ssd / global_ssd`. -/
def calc_gvf_spec (breaks : List ℕ) (vals : List ℚ) (gssd : ℚ) : ℚ :=
  let total_ssd :=
    ((jenksPartitions vals 0 breaks).map (fun p => ssdAbout p (lmean p))).sum
  1 - total_ssd / gssd

/-- Generalisation of the `tssd` accumulation of `calc_gvf` in which the lower
bound of the first partition is a parameter `lo` (the source fixes it to `0`);
used to relate the indexed loop to the recursive partition decomposition. -/
def gvfTermSum (vals : List ℚ) (lo : ℕ) (bs : List ℕ) : ℚ :=
  ((List.range (bs.length + 1)).map (fun i =>
    let lower := if i = 0 then lo else bs.getD (i - 1) 0
    let upper := if i = bs.length then vals.length else bs.getD i 0
    let seg := (vals.take upper).drop lower
    let mean := seg.sum / ((upper - lower : ℕ) : ℚ)
    (seg.map (fun x => (x - mean) * (x - mean))).sum)).sum

/-- A break vector in "normal" (sorted-data index) space that arose from a
valid unique-space sample: the translated image of a strictly ascending list
of unique-value indices in `[1, unique_count)`.  Every `best_breaks` kept by
the search loop after its first iteration has this shape. -/
def validSample (vals : List ℚ) (breaks : List ℕ) : Prop :=
  ∃ us : List ℕ, List.Sorted (· < ·) us ∧
    (∀ u ∈ us, 1 ≤ u ∧ u < vals.dedup.length) ∧
    breaks = unique_to_normal_breaks us (create_unique_val_mapping vals)

/-! ### Basic lemmas about the sampler -/

theorem gen_range_eq_some {lo hi e v : ℕ} (h : gen_range lo hi e = some v) :
    lo ≤ v ∧ v < hi := by
  unfold gen_range at h
  by_cases hlt : lo < hi
  · simp only [hlt, if_pos] at h
    obtain rfl : lo + e % (hi - lo) = v := Option.some.inj h
    constructor
    · exact Nat.le_add_right _ _
    · have : e % (hi - lo) < hi - lo := Nat.mod_lt _ (Nat.sub_pos_of_lt hlt)
      omega
  · simp [hlt] at h

theorem gen_range_isSome_of_lt {lo hi e : ℕ} (h : lo < hi) :
    gen_range lo hi e = some (lo + e % (hi - lo)) := by
  simp [gen_range, h]

theorem pickLoop_of_card_le {rng : Rng} {num_vals target fuel i : ℕ}
    {s : Finset ℕ} (h : target ≤ s.card) :
    pickLoop rng num_vals target fuel i s = .ok (s, i) := by
  cases fuel <;> simp [pickLoop, h]

theorem pickLoop_draw {rng : Rng} {num_vals target f i : ℕ} {s : Finset ℕ}
    {v : ℕ} (hc : ¬ target ≤ s.card)
    (hg : gen_range 1 num_vals (rng i) = some v) :
    pickLoop rng num_vals target (f + 1) i s =
      pickLoop rng num_vals target f (i + 1) (insert v s) := by
  rw [pickLoop, if_neg hc, hg]

theorem pickLoop_stuck {rng : Rng} {num_vals target f i : ℕ} {s : Finset ℕ}
    (hc : ¬ target ≤ s.card)
    (hg : gen_range 1 num_vals (rng i) = none) :
    pickLoop rng num_vals target (f + 1) i s = .error .emptyRange := by
  rw [pickLoop, if_neg hc, hg]

theorem pickLoop_ok_card {rng : Rng} {num_vals target : ℕ} :
    ∀ {fuel i : ℕ} {s out : Finset ℕ} {j : ℕ},
      pickLoop rng num_vals target fuel i s = .ok (out, j) →
      s.card ≤ target → out.card = target := by
  intro fuel
  induction fuel with
  | zero =>
    intro i s out j h hle
    by_cases hc : target ≤ s.card
    · rw [pickLoop_of_card_le hc] at h
      obtain ⟨rfl, rfl⟩ := Prod.mk.inj (Except.ok.inj h)
      omega
    · rw [pickLoop, if_neg hc] at h
      exact absurd h (by simp)
  | succ f ih =>
    intro i s out j h hle
    by_cases hc : target ≤ s.card
    · rw [pickLoop_of_card_le hc] at h
      obtain ⟨rfl, rfl⟩ := Prod.mk.inj (Except.ok.inj h)
      omega
    · cases hg : gen_range 1 num_vals (rng i) with
      | none => rw [pickLoop_stuck hc hg] at h; exact absurd h (by simp)
      | some v =>
        rw [pickLoop_draw hc hg] at h
        exact ih h (le_trans (Finset.card_insert_le _ _) (by omega))

theorem pickLoop_ok_mem {rng : Rng} {num_vals target : ℕ} :
    ∀ {fuel i : ℕ} {s out : Finset ℕ} {j : ℕ},
      pickLoop rng num_vals target fuel i s = .ok (out, j) →
      (∀ x ∈ s, 1 ≤ x ∧ x < num_vals) →
      ∀ x ∈ out, 1 ≤ x ∧ x < num_vals := by
  intro fuel
  induction fuel with
  | zero =>
    intro i s out j h hs
    by_cases hc : target ≤ s.card
    · rw [pickLoop_of_card_le hc] at h
      obtain ⟨rfl, rfl⟩ := Prod.mk.inj (Except.ok.inj h)
      exact hs
    · rw [pickLoop, if_neg hc] at h
      exact absurd h (by simp)
  | succ f ih =>
    intro i s out j h hs
    by_cases hc : target ≤ s.card
    · rw [pickLoop_of_card_le hc] at h
      obtain ⟨rfl, rfl⟩ := Prod.mk.inj (Except.ok.inj h)
      exact hs
    · cases hg : gen_range 1 num_vals (rng i) with
      | none => rw [pickLoop_stuck hc hg] at h; exact absurd h (by simp)
      | some v =>
        rw [pickLoop_draw hc hg] at h
        refine ih h ?_
        intro x hx
        rcases Finset.mem_insert.1 hx with rfl | hx
        · exact gen_range_eq_some hg
        · exact hs x hx

theorem pickLoop_ne_emptyRange {rng : Rng} {num_vals target : ℕ} :
    ∀ {fuel i : ℕ} {s : Finset ℕ},
      (1 < num_vals ∨ target ≤ s.card) →
      pickLoop rng num_vals target fuel i s ≠ .error .emptyRange := by
  intro fuel
  induction fuel with
  | zero =>
    intro i s h
    by_cases hc : target ≤ s.card
    · rw [pickLoop_of_card_le hc]; simp
    · rw [pickLoop, if_neg hc]; simp
  | succ f ih =>
    intro i s h
    by_cases hc : target ≤ s.card
    · rw [pickLoop_of_card_le hc]; simp
    · have hnv : 1 < num_vals := h.resolve_right hc
      rw [pickLoop_draw hc (gen_range_isSome_of_lt hnv)]
      exact ih (Or.inl hnv)

/-- C7: If `pick_rand_breaks` is called with a breaks vector longer than
`num_vals - 1` (with `num_vals ≥ 1`), the guard at the top of the function
returns early and the breaks vector is left unchanged (and the stream is not
advanced). -/
theorem C7_pick_rand_breaks_noop (breaks : List ℕ) (num_vals : ℕ) (rng : Rng)
    (fuel i : ℕ) (hnv : 1 ≤ num_vals) (hlen : num_vals - 1 < breaks.length) :
    pick_rand_breaks breaks num_vals rng fuel i = .ok (breaks, i) := by
  have hz : num_vals ≠ 0 := by omega
  unfold pick_rand_breaks usizeSub1
  simp [hz, hlen]

theorem C7_pick_rand_breaks_noop_witness :
    pick_rand_breaks [0, 0] 2 (fun k => k) 5 0 = .ok ([0, 0], 0) :=
  C7_pick_rand_breaks_noop [0, 0] 2 (fun k => k) 5 0 (by decide) (by decide)

/-- C10: `pick_rand_breaks` with `num_vals = 0` and a non-empty breaks vector:
the guard `num_breaks > num_vals - 1` wraps in unsigned arithmetic
(`0 - 1 = 2^64 - 1`), so the early return is not taken and the draw over the
empty range `[1, 0)` is reached — a failure.  With `num_vals ≥ 1` that failing
branch is unreachable. -/
theorem C10_pick_rand_breaks_underflow (breaks : List ℕ) (num_vals : ℕ)
    (rng : Rng) (fuel i : ℕ) :
    (num_vals = 0 → breaks ≠ [] → breaks.length < 2 ^ 64 → 1 ≤ fuel →
      pick_rand_breaks breaks num_vals rng fuel i = .error .emptyRange)
    ∧ (1 ≤ num_vals →
      pick_rand_breaks breaks num_vals rng fuel i ≠ .error .emptyRange) := by
  constructor
  · rintro rfl hne hlt hfuel
    have hguard : ¬ breaks.length > usizeSub1 0 := by
      have h0 : usizeSub1 0 = 2 ^ 64 - 1 := rfl
      rw [h0]; omega
    unfold pick_rand_breaks
    rw [if_neg hguard]
    obtain ⟨f, rfl⟩ : ∃ f, fuel = f + 1 := ⟨fuel - 1, by omega⟩
    have hpos : 0 < breaks.length := List.length_pos_of_ne_nil hne
    have hcard : ¬ breaks.length ≤ (∅ : Finset ℕ).card := by
      rw [Finset.card_empty]; omega
    have hg : gen_range 1 0 (rng i) = none := by simp [gen_range]
    rw [pickLoop_stuck hcard hg]
  · intro hnv
    have hz : num_vals ≠ 0 := by omega
    unfold pick_rand_breaks
    by_cases hguard : breaks.length > usizeSub1 num_vals
    · rw [if_pos hguard]; simp
    · rw [if_neg hguard]
      have hne : pickLoop rng num_vals breaks.length fuel i ∅ ≠ .error .emptyRange := by
        rcases Nat.lt_or_ge 1 num_vals with h1 | h1
        · exact pickLoop_ne_emptyRange (Or.inl h1)
        · have h1' : num_vals = 1 := by omega
          subst h1'
          have hlen0 : breaks.length = 0 := by
            have : usizeSub1 1 = 0 := by unfold usizeSub1; simp
            omega
          exact pickLoop_ne_emptyRange (Or.inr (by rw [hlen0]; exact Nat.zero_le _))
      cases hpl : pickLoop rng num_vals breaks.length fuel i ∅ with
      | error e =>
        cases e
        · exact absurd hpl hne
        · simp
      | ok p => simp

theorem C10_pick_rand_breaks_underflow_witness :
    pick_rand_breaks [0] 0 (fun k => k) 1 0 = .error .emptyRange
    ∧ pick_rand_breaks [0] 2 (fun k => k) 1 0 ≠ .error .emptyRange :=
  ⟨(C10_pick_rand_breaks_underflow [0] 0 (fun k => k) 1 0).1 rfl (by decide)
      (by norm_num) (by decide),
   (C10_pick_rand_breaks_underflow [0] 2 (fun k => k) 1 0).2 (by decide)⟩

/-- A completed, guard-passing call of `pick_rand_breaks` returns the sorted
list of a sampled set: same length as the input vector, strictly ascending,
all elements in `[1, num_vals)`. -/
theorem pick_rand_breaks_ok_spec {breaks : List ℕ} {num_vals : ℕ} {rng : Rng}
    {fuel i : ℕ} {out : List ℕ} {j : ℕ}
    (hnv : 1 ≤ num_vals) (hc2 : breaks.length ≤ num_vals - 1)
    (hok : pick_rand_breaks breaks num_vals rng fuel i = .ok (out, j)) :
    out.length = breaks.length ∧ List.Sorted (· < ·) out ∧
      ∀ x ∈ out, 1 ≤ x ∧ x < num_vals := by
  have hz : num_vals ≠ 0 := by omega
  have hguard : ¬ breaks.length > usizeSub1 num_vals := by
    unfold usizeSub1; simp [hz]; omega
  unfold pick_rand_breaks at hok
  simp only [hguard, if_neg, not_false_iff] at hok
  cases hpl : pickLoop rng num_vals breaks.length fuel i ∅ with
  | error e => rw [hpl] at hok; exact absurd hok (by simp)
  | ok p =>
    obtain ⟨s, j'⟩ := p
    rw [hpl] at hok
    obtain ⟨h1, h2⟩ : s.sort (· ≤ ·) = out ∧ j' = j := by
      constructor <;> [exact congrArg Prod.fst (Except.ok.inj hok);
                       exact congrArg Prod.snd (Except.ok.inj hok)]
    subst h1; subst h2
    have hcard : s.card = breaks.length :=
      pickLoop_ok_card hpl (by simp)
    have hmem : ∀ x ∈ s, 1 ≤ x ∧ x < num_vals :=
      pickLoop_ok_mem hpl (by simp)
    refine ⟨by rw [Finset.length_sort, hcard], Finset.sort_sorted_lt s, ?_⟩
    intro x hx
    exact hmem x ((Finset.mem_sort ((· ≤ ·) : ℕ → ℕ → Prop)).1 hx)

/-- C6: Under the precondition `1 ≤ count ≤ num_vals - 1`, a completed call of
`pick_rand_breaks` fills the breaks vector with `count` distinct integers from
the range `[1, num_vals)` in ascending order.  (The individual draws are the
`gen_range(1..num_vals)` values produced from the generator's stream; their
uniformity is the generator's contract, abstracted by the entropy stream.) -/
theorem C6_pick_rand_breaks_fills (breaks : List ℕ) (num_vals : ℕ) (rng : Rng)
    (fuel i : ℕ) (out : List ℕ) (j : ℕ)
    (hc1 : 1 ≤ breaks.length) (hc2 : breaks.length ≤ num_vals - 1)
    (hok : pick_rand_breaks breaks num_vals rng fuel i = .ok (out, j)) :
    out.length = breaks.length ∧ List.Sorted (· < ·) out ∧
      ∀ x ∈ out, 1 ≤ x ∧ x < num_vals :=
  pick_rand_breaks_ok_spec (by omega) hc2 hok

theorem C6_pick_rand_breaks_fills_witness :
    ([1] : List ℕ).length = ([0] : List ℕ).length ∧ List.Sorted (· < ·) [1] ∧
      ∀ x ∈ ([1] : List ℕ), 1 ≤ x ∧ x < 3 := by
  have hok : pick_rand_breaks [0] 3 (fun k => k) 1 0 = .ok ([1], 1) := by
    have hguard : ¬ ([0] : List ℕ).length > usizeSub1 3 := by
      unfold usizeSub1; simp
    have hcard : ¬ ([0] : List ℕ).length ≤ (∅ : Finset ℕ).card := by
      rw [Finset.card_empty]; simp
    have hg : gen_range 1 3 ((fun k : ℕ => k) 0) = some 1 := rfl
    unfold pick_rand_breaks
    rw [if_neg hguard, pickLoop_draw hcard hg,
      pickLoop_of_card_le (by simp), show insert 1 (∅ : Finset ℕ) = {1} from rfl]
    show Except.ok (Finset.sort ((· ≤ ·) : ℕ → ℕ → Prop) {1}, 0 + 1) = Except.ok ([1], 1)
    rw [Finset.sort_singleton]
  exact C6_pick_rand_breaks_fills [0] 3 (fun k => k) 1 0 [1] 1
    (by decide) (by decide) hok

/-! ### C9: permutation invariance of the global SSD -/

/-- C9: `calc_gssd` depends only on the multiset of values: permuting the
input does not change the result. -/
theorem C9_calc_gssd_perm_invariant (l₁ l₂ : List ℚ) (h : l₁ ≠ [])
    (hp : l₁.Perm l₂) : calc_gssd l₁ = calc_gssd l₂ := by
  have e₁ : calc_gssd l₁ = (l₁.map (fun v =>
      (v - l₁.sum / (l₁.length : ℚ)) * (v - l₁.sum / (l₁.length : ℚ)))).sum := rfl
  have e₂ : calc_gssd l₂ = (l₂.map (fun v =>
      (v - l₂.sum / (l₂.length : ℚ)) * (v - l₂.sum / (l₂.length : ℚ)))).sum := rfl
  rw [e₁, e₂, hp.sum_eq, hp.length_eq]
  exact (hp.map _).sum_eq

theorem C9_calc_gssd_perm_invariant_witness :
    calc_gssd [(1 : ℚ), 2] = calc_gssd [(2 : ℚ), 1] :=
  C9_calc_gssd_perm_invariant [1, 2] [2, 1] (by decide) (List.Perm.swap 2 1 [])

/-! ### C4: determinism of the break-finding operation -/

/-- C4: `get_jenks_breaks` is a deterministic function of its inputs: the
generator is created inside the function from the fixed hardcoded seed
`123456789`, so two runs on the same `num_bins` and `data` consume the same
entropy stream and produce identical output.  The stream is abstract here; any
two pointwise-equal streams (in particular the fixed seeded stream used by both
runs) give bit-identical results. -/
theorem C4_get_jenks_breaks_deterministic (num_bins : ℕ) (data : List ℚ)
    (rng₁ rng₂ : Rng) (fuel : ℕ) (h : ∀ k, rng₁ k = rng₂ k) :
    get_jenks_breaks num_bins data rng₁ fuel
      = get_jenks_breaks num_bins data rng₂ fuel := by
  rw [funext h]

theorem C4_get_jenks_breaks_deterministic_witness :
    get_jenks_breaks 3 [(1 : ℚ), 2] (fun _ => 0) 5
      = get_jenks_breaks 3 [(1 : ℚ), 2] (fun _ => 0) 5 :=
  C4_get_jenks_breaks_deterministic 3 [1, 2] (fun _ => 0) (fun _ => 0) 5
    (fun _ => rfl)

/-! ### The bridge between `calc_gvf`'s indexed loop and the spec's
partition decomposition -/

theorem gvfTermSum_nil (vals : List ℚ) (lo : ℕ) :
    gvfTermSum vals lo [] = ssdAbout (vals.drop lo) (lmean (vals.drop lo)) := by
  unfold gvfTermSum ssdAbout
  simp only [List.length_nil]
  rw [show List.range (0 + 1) = [0] from rfl]
  simp only [List.map_cons, List.map_nil, List.sum_cons, List.sum_nil, add_zero,
    if_true, List.take_length]
  simp only [lmean, List.length_drop]

theorem gvfTermSum_cons (vals : List ℚ) (lo b : ℕ) (bs : List ℕ) :
    gvfTermSum vals lo (b :: bs) =
      ssdAbout ((vals.take b).drop lo)
        (((vals.take b).drop lo).sum / ((b - lo : ℕ) : ℚ))
      + gvfTermSum vals b bs := by
  unfold gvfTermSum ssdAbout
  rw [show (b :: bs).length = bs.length + 1 from rfl, List.range_succ_eq_map,
    List.map_cons, List.sum_cons, List.map_map]
  congr 1
  refine congrArg List.sum (List.map_congr_left ?_)
  intro i hi
  simp only [Function.comp_apply]
  rcases i with _ | k
  · simp [List.getD_cons_succ, List.getD_cons_zero, List.length_eq_zero, eq_comm]
  · simp [List.getD_cons_succ, List.getD_cons_zero, List.length_eq_zero, eq_comm]

theorem gvfTermSum_eq_partitions (vals : List ℚ) :
    ∀ (bs : List ℕ) (lo : ℕ), (∀ b ∈ bs, b ≤ vals.length) →
      gvfTermSum vals lo bs =
        ((jenksPartitions vals lo bs).map (fun p => ssdAbout p (lmean p))).sum := by
  intro bs
  induction bs with
  | nil =>
    intro lo _
    rw [gvfTermSum_nil]
    simp [jenksPartitions]
  | cons b bs ih =>
    intro lo hb
    rw [gvfTermSum_cons]
    simp only [jenksPartitions, List.map_cons, List.sum_cons]
    congr 1
    · have hlen : ((vals.take b).drop lo).length = b - lo := by
        rw [List.length_drop, List.length_take]
        have hble : b ≤ vals.length := hb b (List.mem_cons_self b bs)
        omega
      simp only [lmean, hlen]
    · exact ih b (fun x hx => hb x (List.mem_cons_of_mem b hx))

theorem calc_gvf_eq_spec_of_bounds (breaks : List ℕ) (vals : List ℚ)
    (gssd : ℚ) (hb : ∀ b ∈ breaks, b ≤ vals.length) :
    calc_gvf breaks vals gssd = calc_gvf_spec breaks vals gssd := by
  have h0 : calc_gvf breaks vals gssd
      = 1 - gvfTermSum vals 0 breaks / gssd := rfl
  rw [h0, gvfTermSum_eq_partitions vals breaks 0 hb]
  rfl

/-- C3: the refinement claim.  Under the spec's preconditions (ascending break
indices, each in `[1, n)`, so that the partitions are non-empty, contiguous and
cover `[0, n)`), `calc_gvf` computes exactly the spec's description: the sum
over partitions `[boundaries[i-1], boundaries[i])` (with `boundary[-1] = 0`,
`boundary[k-1] = n`) of squared deviations about the partition mean, and
returns `1 - total_ssd / global_ssd`. -/
theorem C3_calc_gvf_refines_spec (breaks : List ℕ) (vals : List ℚ) (gssd : ℚ)
    (hsort : List.Sorted (· < ·) breaks)
    (hbounds : ∀ b ∈ breaks, 1 ≤ b ∧ b < vals.length) :
    calc_gvf breaks vals gssd = calc_gvf_spec breaks vals gssd :=
  calc_gvf_eq_spec_of_bounds breaks vals gssd
    (fun b hb => le_of_lt (hbounds b hb).2)

theorem C3_calc_gvf_refines_spec_witness :
    calc_gvf [2] [(1 : ℚ), 1, 2, 2] 1 = calc_gvf_spec [2] [(1 : ℚ), 1, 2, 2] 1 :=
  C3_calc_gvf_refines_spec [2] [1, 1, 2, 2] 1 (by decide) (by decide)

/-! ### C8: GVF is exactly 1 when the within-partition variance vanishes -/

theorem ssdAbout_self_const {p : List ℚ} (h : ∀ x ∈ p, ∀ y ∈ p, x = y) :
    ssdAbout p (lmean p) = 0 := by
  cases p with
  | nil => rfl
  | cons a l =>
    have hmean : lmean (a :: l) = a := by
      have hrep : a :: l = List.replicate (a :: l).length a :=
        List.eq_replicate_iff.mpr
          ⟨rfl, fun b hb => h b hb a (List.mem_cons_self a l)⟩
      simp only [lmean]
      rw [hrep, List.sum_replicate, List.length_replicate, nsmul_eq_mul]
      exact mul_div_cancel_left₀ _ (Nat.cast_ne_zero.mpr (Nat.succ_ne_zero _))
    rw [hmean]
    simp only [ssdAbout]
    apply List.sum_eq_zero
    intro x hx
    obtain ⟨y, hy, rfl⟩ := List.mem_map.1 hx
    rw [h y hy a (List.mem_cons_self a l)]
    ring

/-- C8: whenever every partition determined by the breaks holds copies of a
single value (zero within-partition spread), `calc_gvf` returns exactly 1.
Arithmetic is exact (`ℚ`); the breaks satisfy the function's documented
precondition (sorted ascending indices into the sorted data). -/
theorem C8_calc_gvf_eq_one (breaks : List ℕ) (vals : List ℚ) (gssd : ℚ)
    (hsort : List.Sorted (· < ·) breaks)
    (hbounds : ∀ b ∈ breaks, 1 ≤ b ∧ b < vals.length)
    (hconst : ∀ p ∈ jenksPartitions vals 0 breaks, ∀ x ∈ p, ∀ y ∈ p, x = y) :
    calc_gvf breaks vals gssd = 1 := by
  rw [calc_gvf_eq_spec_of_bounds breaks vals gssd
    (fun b hb => le_of_lt (hbounds b hb).2)]
  unfold calc_gvf_spec
  have hz : ((jenksPartitions vals 0 breaks).map
      (fun p => ssdAbout p (lmean p))).sum = 0 := by
    apply List.sum_eq_zero
    intro x hx
    obtain ⟨p, hp, rfl⟩ := List.mem_map.1 hx
    exact ssdAbout_self_const (hconst p hp)
  rw [hz]
  simp

theorem C8_calc_gvf_eq_one_witness :
    calc_gvf [2] [(1 : ℚ), 1, 2, 2] (calc_gssd [(1 : ℚ), 1, 2, 2]) = 1 :=
  C8_calc_gvf_eq_one [2] [1, 1, 2, 2] (calc_gssd [1, 1, 2, 2])
    (by decide) (by decide) (by decide)

/-! ### Equation lemmas for the search loop -/

theorem jenksStep_of_pick_ok {rng : Rng} {nuv : ℕ} {uvm : List UniqueVal}
    {sorted : List ℚ} {gssd : ℚ} {fuel : ℕ} {s : JenksState} {u : List ℕ}
    {j : ℕ}
    (hp : pick_rand_breaks s.unique_rand_breaks nuv rng fuel s.rng_ix
      = .ok (u, j)) :
    jenksStep rng nuv uvm sorted gssd fuel s =
      (if calc_gvf (unique_to_normal_breaks u uvm) sorted gssd > s.max_gvf then
        .ok
          { unique_rand_breaks := u
            rand_breaks := unique_to_normal_breaks u uvm
            best_breaks := unique_to_normal_breaks u uvm
              ++ s.best_breaks.drop (unique_to_normal_breaks u uvm).length
            max_gvf := calc_gvf (unique_to_normal_breaks u uvm) sorted gssd
            rng_ix := j
            gvf_gssd_args := s.gvf_gssd_args ++ [gssd] }
      else
        .ok
          { s with
            unique_rand_breaks := u
            rand_breaks := unique_to_normal_breaks u uvm
            rng_ix := j
            gvf_gssd_args := s.gvf_gssd_args ++ [gssd] }) := by
  show ((match pick_rand_breaks s.unique_rand_breaks nuv rng fuel s.rng_ix with
    | Except.error e => Except.error e
    | Except.ok (u, j) =>
      if calc_gvf (unique_to_normal_breaks u uvm) sorted gssd > s.max_gvf then
        Except.ok
          { unique_rand_breaks := u
            rand_breaks := unique_to_normal_breaks u uvm
            best_breaks := unique_to_normal_breaks u uvm
              ++ s.best_breaks.drop (unique_to_normal_breaks u uvm).length
            max_gvf := calc_gvf (unique_to_normal_breaks u uvm) sorted gssd
            rng_ix := j
            gvf_gssd_args := s.gvf_gssd_args ++ [gssd] }
      else
        Except.ok
          { s with
            unique_rand_breaks := u
            rand_breaks := unique_to_normal_breaks u uvm
            rng_ix := j
            gvf_gssd_args := s.gvf_gssd_args ++ [gssd] })
    : Except PickErr JenksState) = _
  rw [hp]

theorem jenksStep_of_pick_error {rng : Rng} {nuv : ℕ} {uvm : List UniqueVal}
    {sorted : List ℚ} {gssd : ℚ} {fuel : ℕ} {s : JenksState} {e : PickErr}
    (hp : pick_rand_breaks s.unique_rand_breaks nuv rng fuel s.rng_ix
      = .error e) :
    jenksStep rng nuv uvm sorted gssd fuel s = .error e := by
  unfold jenksStep
  rw [hp]

theorem jenksLoop_zero {rng : Rng} {nuv : ℕ} {uvm : List UniqueVal}
    {sorted : List ℚ} {gssd : ℚ} {fuel : ℕ} {s : JenksState} :
    jenksLoop rng nuv uvm sorted gssd fuel 0 s = .ok s := rfl

theorem jenksLoop_succ_ok {rng : Rng} {nuv : ℕ} {uvm : List UniqueVal}
    {sorted : List ℚ} {gssd : ℚ} {fuel k : ℕ} {s s2 : JenksState}
    (hst : jenksStep rng nuv uvm sorted gssd fuel s = .ok s2) :
    jenksLoop rng nuv uvm sorted gssd fuel (k + 1) s
      = jenksLoop rng nuv uvm sorted gssd fuel k s2 := by
  show ((match jenksStep rng nuv uvm sorted gssd fuel s with
    | Except.error e => Except.error e
    | Except.ok s2 => jenksLoop rng nuv uvm sorted gssd fuel k s2)
    : Except PickErr JenksState) = _
  rw [hst]

theorem jenksLoop_succ_error {rng : Rng} {nuv : ℕ} {uvm : List UniqueVal}
    {sorted : List ℚ} {gssd : ℚ} {fuel k : ℕ} {s : JenksState} {e : PickErr}
    (hst : jenksStep rng nuv uvm sorted gssd fuel s = .error e) :
    jenksLoop rng nuv uvm sorted gssd fuel (k + 1) s = .error e := by
  show ((match jenksStep rng nuv uvm sorted gssd fuel s with
    | Except.error e => Except.error e
    | Except.ok s2 => jenksLoop rng nuv uvm sorted gssd fuel k s2)
    : Except PickErr JenksState) = _
  rw [hst]

theorem jenksRun_def (num_bins : ℕ) (data : List ℚ) (rng : Rng) (fuel : ℕ) :
    jenksRun num_bins data rng fuel =
      jenksLoop rng (create_unique_val_mapping (jenksSorted data)).length
        (create_unique_val_mapping (jenksSorted data)) (jenksSorted data)
        (calc_gssd (jenksSorted data)) fuel (permutationsFor data.length)
        (jenksInitState
          (min (create_unique_val_mapping (jenksSorted data)).length num_bins
            - 1)) := rfl

theorem except_map_ok {ε α β : Type} (f : α → β) (e : Except ε α) (b : β)
    (h : e.map f = .ok b) : ∃ a, e = .ok a ∧ b = f a := by
  cases e with
  | error e => simp [Except.map] at h
  | ok a => exact ⟨a, rfl, by simpa [Except.map] using h.symm⟩

/-! ### Length invariants of the search loop -/

theorem pick_rand_breaks_ok_length {breaks : List ℕ} {num_vals : ℕ}
    {rng : Rng} {fuel i : ℕ} {out : List ℕ} {j : ℕ}
    (h : pick_rand_breaks breaks num_vals rng fuel i = .ok (out, j)) :
    out.length = breaks.length := by
  unfold pick_rand_breaks at h
  by_cases hguard : breaks.length > usizeSub1 num_vals
  · rw [if_pos hguard] at h
    obtain ⟨rfl, rfl⟩ := Prod.mk.inj (Except.ok.inj h)
    rfl
  · rw [if_neg hguard] at h
    cases hpl : pickLoop rng num_vals breaks.length fuel i ∅ with
    | error e => rw [hpl] at h; exact absurd h (by simp)
    | ok p =>
      obtain ⟨s, j'⟩ := p
      rw [hpl] at h
      obtain ⟨h1, h2⟩ := Prod.mk.inj (Except.ok.inj h)
      rw [← h1, Finset.length_sort]
      exact pickLoop_ok_card hpl (by simp)

theorem jenksStep_inv {rng : Rng} {nuv : ℕ} {uvm : List UniqueVal}
    {sorted : List ℚ} {gssd : ℚ} {fuel : ℕ} {n : ℕ} {s s' : JenksState}
    (hs : jenksStep rng nuv uvm sorted gssd fuel s = .ok s')
    (h1 : s.unique_rand_breaks.length = n) (h2 : s.best_breaks.length = n) :
    s'.unique_rand_breaks.length = n ∧ s'.best_breaks.length = n := by
  cases hp : pick_rand_breaks s.unique_rand_breaks nuv rng fuel s.rng_ix with
  | error e =>
    rw [jenksStep_of_pick_error hp] at hs
    exact absurd hs (by simp)
  | ok p =>
    obtain ⟨u, j⟩ := p
    rw [jenksStep_of_pick_ok hp] at hs
    have hu : u.length = n := by rw [pick_rand_breaks_ok_length hp, h1]
    have hrand : (unique_to_normal_breaks u uvm).length = n := by
      rw [unique_to_normal_breaks, List.length_map, hu]
    by_cases hgt : calc_gvf (unique_to_normal_breaks u uvm) sorted gssd
        > s.max_gvf
    · rw [if_pos hgt] at hs
      obtain rfl := Except.ok.inj hs
      refine ⟨hu, ?_⟩
      simp only [List.length_append, List.length_drop, hrand, h2]
      omega
    · rw [if_neg hgt] at hs
      obtain rfl := Except.ok.inj hs
      exact ⟨hu, h2⟩

theorem jenksLoop_inv {rng : Rng} {nuv : ℕ} {uvm : List UniqueVal}
    {sorted : List ℚ} {gssd : ℚ} {fuel : ℕ} {n : ℕ} :
    ∀ {k : ℕ} {s s' : JenksState},
      jenksLoop rng nuv uvm sorted gssd fuel k s = .ok s' →
      s.unique_rand_breaks.length = n → s.best_breaks.length = n →
      s'.unique_rand_breaks.length = n ∧ s'.best_breaks.length = n := by
  intro k
  induction k with
  | zero =>
    intro s s' h h1 h2
    rw [jenksLoop_zero] at h
    obtain rfl := Except.ok.inj h
    exact ⟨h1, h2⟩
  | succ k ih =>
    intro s s' h h1 h2
    cases hst : jenksStep rng nuv uvm sorted gssd fuel s with
    | error e =>
      rw [jenksLoop_succ_error hst] at h
      exact absurd h (by simp)
    | ok s2 =>
      rw [jenksLoop_succ_ok hst] at h
      obtain ⟨hu, hb⟩ := jenksStep_inv hst h1 h2
      exact ih h hu hb

/-! ### Properties of the unique-value mapping -/

theorem mem_jenksSorted {x : ℚ} {data : List ℚ} :
    x ∈ jenksSorted data ↔ x ∈ data :=
  (List.perm_insertionSort _ data).mem_iff

theorem jenksSorted_ne_nil {data : List ℚ} (hne : data ≠ []) :
    jenksSorted data ≠ [] := by
  intro h
  obtain ⟨x, hx⟩ := List.exists_mem_of_ne_nil data hne
  have : x ∈ jenksSorted data := mem_jenksSorted.2 hx
  rw [h] at this
  exact absurd this (List.not_mem_nil x)

theorem uniqueCount_pos {data : List ℚ} (hne : data ≠ []) :
    1 ≤ uniqueCount data := by
  unfold uniqueCount create_unique_val_mapping
  rw [List.length_map]
  obtain ⟨x, hx⟩ := List.exists_mem_of_ne_nil _ (jenksSorted_ne_nil hne)
  have : x ∈ (jenksSorted data).dedup := List.mem_dedup.2 hx
  exact List.length_pos.2 (List.ne_nil_of_mem this)

theorem dedup_length_one_of_allEqual {l : List ℚ} (hne : l ≠ [])
    (h : ∀ x ∈ l, ∀ y ∈ l, x = y) : l.dedup.length = 1 := by
  cases hd : l.dedup with
  | nil =>
    obtain ⟨x, hx⟩ := List.exists_mem_of_ne_nil l hne
    have : x ∈ l.dedup := List.mem_dedup.2 hx
    rw [hd] at this
    exact absurd this (List.not_mem_nil x)
  | cons a t =>
    cases t with
    | nil => rfl
    | cons b t2 =>
      have ha : a ∈ l.dedup := by rw [hd]; exact List.mem_cons_self a _
      have hb : b ∈ l.dedup := by
        rw [hd]; exact List.mem_cons_of_mem a (List.mem_cons_self b t2)
      have hab : a = b := h a (List.mem_dedup.1 ha) b (List.mem_dedup.1 hb)
      have hnd := List.nodup_dedup l
      rw [hd] at hnd
      rw [List.nodup_cons] at hnd
      exact absurd (hab ▸ List.mem_cons_self b t2) hnd.1

theorem uniqueCount_allEqual {data : List ℚ} (hne : data ≠ [])
    (h : allEqual data) : uniqueCount data = 1 := by
  unfold uniqueCount create_unique_val_mapping
  rw [List.length_map]
  exact dedup_length_one_of_allEqual (jenksSorted_ne_nil hne)
    (fun x hx y hy => h x (mem_jenksSorted.1 hx) y (mem_jenksSorted.1 hy))

theorem calc_gssd_allEqual {l : List ℚ} (h : ∀ x ∈ l, ∀ y ∈ l, x = y) :
    calc_gssd l = 0 := by
  have he : calc_gssd l = ssdAbout l (lmean l) := rfl
  rw [he]
  exact ssdAbout_self_const h

/-! ### C1: number of returned breaks -/

/-- C1: on a successful run with non-empty data and `num_bins ≥ 1`, the breaks
sequence returned by `get_jenks_breaks` has length
`min(num_bins, number_of_unique_values) - 1`, and it is empty when
`num_bins = 1` or when all values are identical. -/
theorem C1_get_jenks_breaks_length (num_bins : ℕ) (data : List ℚ) (rng : Rng)
    (fuel : ℕ) (bs : List ℚ) (hnb : 1 ≤ num_bins) (hne : data ≠ [])
    (hok : get_jenks_breaks num_bins data rng fuel = .ok bs) :
    bs.length = min num_bins (uniqueCount data) - 1 ∧
      ((num_bins = 1 ∨ allEqual data) → bs = []) := by
  obtain ⟨s', hrun, hbs⟩ := except_map_ok _ _ _ hok
  rw [jenksRun_def] at hrun
  have hinv := jenksLoop_inv hrun
    (List.length_replicate _ _ : (jenksInitState _).unique_rand_breaks.length = _)
    (List.length_replicate _ _ : (jenksInitState _).best_breaks.length = _)
  have hlen : bs.length = min num_bins (uniqueCount data) - 1 := by
    rw [hbs, List.length_map, hinv.2, uniqueCount, Nat.min_comm]
  refine ⟨hlen, ?_⟩
  intro hcase
  rw [← List.length_eq_zero, hlen]
  rcases hcase with rfl | hall
  · have h1 := Nat.min_le_left 1 (uniqueCount data)
    omega
  · have huc : uniqueCount data = 1 := uniqueCount_allEqual hne hall
    rw [huc]
    have h1 := Nat.min_le_right num_bins 1
    omega

/-! ### Runs on identical data -/

theorem except_map_ok_eq {ε α β : Type} (f : α → β) (a : α) :
    (Except.ok a : Except ε α).map f = .ok (f a) := rfl

theorem pick_rand_breaks_nil (num_vals : ℕ) (rng : Rng) (fuel i : ℕ) :
    pick_rand_breaks [] num_vals rng fuel i = .ok ([], i) := by
  unfold pick_rand_breaks
  rw [if_neg (by simp), pickLoop_of_card_le (by simp)]
  show Except.ok (Finset.sort ((· ≤ ·) : ℕ → ℕ → Prop) ∅, i) = Except.ok ([], i)
  rw [Finset.sort_empty]

theorem jenksStep_empty {rng : Rng} {nuv : ℕ} {uvm : List UniqueVal}
    {sorted : List ℚ} {gssd : ℚ} {fuel : ℕ} {s : JenksState}
    (hu : s.unique_rand_breaks = []) (hb : s.best_breaks = []) :
    ∃ s', jenksStep rng nuv uvm sorted gssd fuel s = .ok s' ∧
      s'.unique_rand_breaks = [] ∧ s'.best_breaks = [] ∧
      s'.gvf_gssd_args = s.gvf_gssd_args ++ [gssd] := by
  have hp : pick_rand_breaks s.unique_rand_breaks nuv rng fuel s.rng_ix
      = .ok ([], s.rng_ix) := by
    rw [hu]; exact pick_rand_breaks_nil nuv rng fuel s.rng_ix
  rw [jenksStep_of_pick_ok hp]
  by_cases hgt : calc_gvf (unique_to_normal_breaks [] uvm) sorted gssd
      > s.max_gvf
  · rw [if_pos hgt]
    exact ⟨_, rfl, rfl, by simpa [unique_to_normal_breaks] using hb, rfl⟩
  · rw [if_neg hgt]
    exact ⟨_, rfl, rfl, hb, rfl⟩

theorem jenksLoop_empty {rng : Rng} {nuv : ℕ} {uvm : List UniqueVal}
    {sorted : List ℚ} {gssd : ℚ} {fuel : ℕ} :
    ∀ (k : ℕ) (s : JenksState),
      s.unique_rand_breaks = [] → s.best_breaks = [] →
      ∃ s', jenksLoop rng nuv uvm sorted gssd fuel k s = .ok s' ∧
        s'.best_breaks = [] ∧
        s'.gvf_gssd_args = s.gvf_gssd_args ++ List.replicate k gssd := by
  intro k
  induction k with
  | zero =>
    intro s hu hb
    exact ⟨s, jenksLoop_zero, hb, by simp⟩
  | succ k ih =>
    intro s hu hb
    obtain ⟨s2, hst, hu2, hb2, ha2⟩ := jenksStep_empty hu hb
    obtain ⟨s', hl, hb', ha'⟩ := ih s2 hu2 hb2
    refine ⟨s', ?_, hb', ?_⟩
    · rw [jenksLoop_succ_ok hst, hl]
    · rw [ha', ha2, List.append_assoc, List.singleton_append,
        ← List.replicate_succ]

theorem permutationsFor_pos (n : ℕ) : 10 ≤ permutationsFor n := by
  show 10 ≤ (if (if 5000 * 2200 * 4 / n < 10 then 10 else 5000 * 2200 * 4 / n)
      > 10000 then 10000
    else (if 5000 * 2200 * 4 / n < 10 then 10 else 5000 * 2200 * 4 / n))
  split
  · decide
  · split <;> omega

theorem jenksRun_allEqual (num_bins : ℕ) (data : List ℚ) (rng : Rng)
    (fuel : ℕ) (hne : data ≠ []) (hnb : 1 ≤ num_bins) (hall : allEqual data) :
    ∃ s', jenksRun num_bins data rng fuel = .ok s' ∧ s'.best_breaks = [] ∧
      s'.gvf_gssd_args = List.replicate (permutationsFor data.length) 0 := by
  have huc : (create_unique_val_mapping (jenksSorted data)).length = 1 :=
    uniqueCount_allEqual hne hall
  have hall' : ∀ x ∈ jenksSorted data, ∀ y ∈ jenksSorted data, x = y :=
    fun x hx y hy => hall x (mem_jenksSorted.1 hx) y (mem_jenksSorted.1 hy)
  have hgssd : calc_gssd (jenksSorted data) = 0 := calc_gssd_allEqual hall'
  have hmin : min (create_unique_val_mapping (jenksSorted data)).length
      num_bins = 1 := by
    rw [huc]; omega
  rw [jenksRun_def, hmin, hgssd]
  obtain ⟨s', hl, hb', ha'⟩ := jenksLoop_empty (permutationsFor data.length)
    (jenksInitState 0) rfl rfl
  exact ⟨s', hl, hb', by rw [ha']; rfl⟩

theorem C1_get_jenks_breaks_length_witness :
    (([] : List ℚ).length = min 3 (uniqueCount [(5 : ℚ), 5]) - 1) ∧
      ((3 = 1 ∨ allEqual [(5 : ℚ), 5]) → ([] : List ℚ) = []) := by
  have hok : get_jenks_breaks 3 [(5 : ℚ), 5] (fun _ => 0) 0 = .ok [] := by
    obtain ⟨s', hrun, hb', ha'⟩ := jenksRun_allEqual 3 [(5 : ℚ), 5]
      (fun _ => 0) 0 (by decide) (by decide) (by decide)
    unfold get_jenks_breaks
    rw [hrun, except_map_ok_eq, hb']
    rfl
  exact C1_get_jenks_breaks_length 3 [(5 : ℚ), 5] (fun _ => 0) 0 []
    (by decide) (by decide) hok

/-! ### C5 -/

/-- C5 (amended): when all values are identical (non-empty data,
`num_bins ≥ 1`), `get_jenks_breaks` does return zero breaks; but the search is
NOT bypassed: the loop still runs all `permutations` iterations (at least 10),
and every iteration passes the zero global SSD to `calc_gvf` as divisor.  The
zero-break result comes from `true_num_bins = 1` making the break vectors
empty, not from a special case on `gssd = 0`. -/
theorem C5_identical_values (num_bins : ℕ) (data : List ℚ) (rng : Rng)
    (fuel : ℕ) (hne : data ≠ []) (hnb : 1 ≤ num_bins) (hall : allEqual data) :
    get_jenks_breaks num_bins data rng fuel = .ok [] ∧
      jenks_gssd_args num_bins data rng fuel
        = .ok (List.replicate (permutationsFor data.length) 0) ∧
      1 ≤ permutationsFor data.length := by
  obtain ⟨s', hrun, hb', ha'⟩ := jenksRun_allEqual num_bins data rng fuel
    hne hnb hall
  refine ⟨?_, ?_, le_trans (by omega) (permutationsFor_pos data.length)⟩
  · unfold get_jenks_breaks
    rw [hrun, except_map_ok_eq, hb']
    rfl
  · unfold jenks_gssd_args
    rw [hrun, except_map_ok_eq, ha']

theorem C5_identical_values_witness :
    get_jenks_breaks 2 [(5 : ℚ), 5] (fun _ => 0) 0 = .ok [] ∧
      jenks_gssd_args 2 [(5 : ℚ), 5] (fun _ => 0) 0
        = .ok (List.replicate (permutationsFor ([(5 : ℚ), 5]).length) 0) ∧
      1 ≤ permutationsFor ([(5 : ℚ), 5]).length :=
  C5_identical_values 2 [5, 5] (fun _ => 0) 0 (by decide) (by decide)
    (by decide)

/-- C5 counterexample to the claim as stated: with all-identical data the GVF
computation is NOT shielded from the zero global SSD and the search is NOT
bypassed — on `data = [5, 5]`, `num_bins = 2`, the loop executes 10000
iterations, each invoking `calc_gvf` with `gssd = 0` as divisor (the list of
`gssd` arguments is 10000 copies of 0). -/
theorem C5_counterexample :
    jenks_gssd_args 2 [(5 : ℚ), 5] (fun _ => 0) 0
      = .ok (List.replicate 10000 0)
    ∧ (0 : ℚ) ∈ List.replicate 10000 (0 : ℚ) := by
  obtain ⟨s', hrun, hb', ha'⟩ := jenksRun_allEqual 2 [(5 : ℚ), 5]
    (fun _ => 0) 0 (by decide) (by decide) (by decide)
  constructor
  · unfold jenks_gssd_args
    rw [hrun, except_map_ok_eq, ha']
    have hp : permutationsFor ([(5 : ℚ), 5]).length = 10000 := by decide
    rw [hp]
  · exact List.mem_replicate.2 ⟨by norm_num, rfl⟩

/-! ### Sum and sum-of-squared-deviation algebra (towards C2) -/

theorem sum_map_add (p : List ℚ) (f g : ℚ → ℚ) :
    (p.map (fun x => f x + g x)).sum = (p.map f).sum + (p.map g).sum := by
  induction p with
  | nil => simp
  | cons a t ih => simp [ih]; ring

theorem sum_map_mul_left (p : List ℚ) (c : ℚ) (f : ℚ → ℚ) :
    (p.map (fun x => c * f x)).sum = c * (p.map f).sum := by
  induction p with
  | nil => simp
  | cons a t ih => simp [ih]; ring

theorem sum_map_const (p : List ℚ) (c : ℚ) :
    (p.map (fun _ => c)).sum = (p.length : ℚ) * c := by
  induction p with
  | nil => simp
  | cons a t ih =>
    simp [ih]
    ring

theorem sum_map_sub_const (p : List ℚ) (c : ℚ) :
    (p.map (fun x => x - c)).sum = p.sum - (p.length : ℚ) * c := by
  induction p with
  | nil => simp
  | cons a t ih =>
    simp [ih]
    ring

theorem sum_map_const_sub (p : List ℚ) (c : ℚ) :
    (p.map (fun x => c - x)).sum = (p.length : ℚ) * c - p.sum := by
  induction p with
  | nil => simp
  | cons a t ih =>
    simp [ih]
    ring

theorem length_cast_ne_zero {p : List ℚ} (hne : p ≠ []) :
    ((p.length : ℚ)) ≠ 0 :=
  Nat.cast_ne_zero.mpr (fun h => hne (List.length_eq_zero.1 h))

theorem sum_map_sub_mean {p : List ℚ} (hne : p ≠ []) :
    (p.map (fun x => x - lmean p)).sum = 0 := by
  rw [sum_map_sub_const, lmean]
  have hn := length_cast_ne_zero hne
  field_simp

theorem sum_eq_length_mul_mean {p : List ℚ} (hne : p ≠ []) :
    p.sum = (p.length : ℚ) * lmean p := by
  rw [lmean]
  have hn := length_cast_ne_zero hne
  field_simp

theorem ssdAbout_shift (p : List ℚ) (hne : p ≠ []) (c : ℚ) :
    ssdAbout p c = ssdAbout p (lmean p)
      + (p.length : ℚ) * ((lmean p - c) * (lmean p - c)) := by
  have h1 : p.map (fun x => (x - c) * (x - c))
      = p.map (fun x => ((x - lmean p) * (x - lmean p)
        + (2 * (lmean p - c)) * (x - lmean p))
        + ((lmean p - c) * (lmean p - c))) :=
    List.map_congr_left (fun x _ => by ring)
  unfold ssdAbout
  rw [h1, sum_map_add, sum_map_add, sum_map_mul_left, sum_map_const,
    sum_map_sub_mean hne]
  ring

theorem ssdAbout_nonneg (p : List ℚ) (c : ℚ) : 0 ≤ ssdAbout p c := by
  apply List.sum_nonneg
  intro x hx
  obtain ⟨y, _, rfl⟩ := List.mem_map.1 hx
  exact mul_self_nonneg _

theorem ssdAbout_mean_le (p : List ℚ) (c : ℚ) :
    ssdAbout p (lmean p) ≤ ssdAbout p c := by
  rcases eq_or_ne p [] with rfl | hne
  · simp [ssdAbout]
  · rw [ssdAbout_shift p hne c]
    have h1 : (0 : ℚ) ≤ (p.length : ℚ) := Nat.cast_nonneg _
    have h2 : (0 : ℚ) ≤ (lmean p - c) * (lmean p - c) := mul_self_nonneg _
    nlinarith

theorem ssdAbout_mean_lt (p : List ℚ) (hne : p ≠ []) (c : ℚ)
    (hc : lmean p ≠ c) : ssdAbout p (lmean p) < ssdAbout p c := by
  rw [ssdAbout_shift p hne c]
  have h1 : (0 : ℚ) < (p.length : ℚ) :=
    Nat.cast_pos.mpr (List.length_pos.2 hne)
  have h2 : (0 : ℚ) < (lmean p - c) * (lmean p - c) :=
    mul_self_pos.mpr (sub_ne_zero.mpr hc)
  nlinarith

theorem ssdAbout_append (l₁ l₂ : List ℚ) (c : ℚ) :
    ssdAbout (l₁ ++ l₂) c = ssdAbout l₁ c + ssdAbout l₂ c := by
  unfold ssdAbout
  rw [List.map_append, List.sum_append]

theorem ssdAbout_pos_of_two_ne {l : List ℚ} {x y : ℚ} (hx : x ∈ l) (hy : y ∈ l)
    (hxy : x ≠ y) : 0 < ssdAbout l (lmean l) := by
  have hex : ∃ z ∈ l, z ≠ lmean l := by
    by_contra hno
    push_neg at hno
    exact hxy ((hno x hx).trans (hno y hy).symm)
  obtain ⟨z, hz, hzne⟩ := hex
  have hmem : (z - lmean l) * (z - lmean l)
      ∈ l.map (fun x => (x - lmean l) * (x - lmean l)) :=
    List.mem_map_of_mem _ hz
  have hpos : 0 < (z - lmean l) * (z - lmean l) :=
    mul_self_pos.mpr (sub_ne_zero.mpr hzne)
  have hle := List.single_le_sum
    (fun w hw => by
      obtain ⟨v, _, rfl⟩ := List.mem_map.1 hw
      exact mul_self_nonneg _) _ hmem
  exact lt_of_lt_of_le hpos hle

theorem all_eq_mean_of_le {p : List ℚ} (hne : p ≠ []) {c : ℚ}
    (hle : ∀ x ∈ p, x ≤ c) (hm : lmean p = c) : ∀ x ∈ p, x = c := by
  have hsum : p.sum = (p.length : ℚ) * c := by
    rw [sum_eq_length_mul_mean hne, hm]
  have hz : (p.map (fun x => c - x)).sum = 0 := by
    rw [sum_map_const_sub, hsum]
    ring
  intro x hx
  have h1 : c - x = 0 :=
    List.all_zero_of_le_zero_le_of_sum_eq_zero
      (fun w hw => by
        obtain ⟨v, hv, rfl⟩ := List.mem_map.1 hw
        exact sub_nonneg.2 (hle v hv))
      hz (List.mem_map_of_mem _ hx)
  linarith

theorem all_eq_mean_of_ge {p : List ℚ} (hne : p ≠ []) {c : ℚ}
    (hge : ∀ x ∈ p, c ≤ x) (hm : lmean p = c) : ∀ x ∈ p, x = c := by
  have hsum : p.sum = (p.length : ℚ) * c := by
    rw [sum_eq_length_mul_mean hne, hm]
  have hz : (p.map (fun x => x - c)).sum = 0 := by
    rw [sum_map_sub_const, hsum]
    ring
  intro x hx
  have h1 : x - c = 0 :=
    List.all_zero_of_le_zero_le_of_sum_eq_zero
      (fun w hw => by
        obtain ⟨v, hv, rfl⟩ := List.mem_map.1 hw
        exact sub_nonneg.2 (hge v hv))
      hz (List.mem_map_of_mem _ hx)
  linarith

theorem mean_le_of_forall_le {p : List ℚ} (hne : p ≠ []) {c : ℚ}
    (h : ∀ x ∈ p, x ≤ c) : lmean p ≤ c := by
  have hlen : (0 : ℚ) < (p.length : ℚ) :=
    Nat.cast_pos.mpr (List.length_pos.2 hne)
  have hsum : p.sum ≤ (p.length : ℚ) * c := by
    have h2 := List.sum_le_card_nsmul p c h
    rwa [nsmul_eq_mul] at h2
  rw [lmean, div_le_iff₀ hlen]
  nlinarith

theorem le_mean_of_forall_le {p : List ℚ} (hne : p ≠ []) {c : ℚ}
    (h : ∀ x ∈ p, c ≤ x) : c ≤ lmean p := by
  have hlen : (0 : ℚ) < (p.length : ℚ) :=
    Nat.cast_pos.mpr (List.length_pos.2 hne)
  have hsum : (p.length : ℚ) * c ≤ p.sum := by
    have h2 := List.card_nsmul_le_sum p c h
    rwa [nsmul_eq_mul] at h2
  rw [lmean, le_div_iff₀ hlen]
  nlinarith

/-- If a list splits into a non-empty front block dominated elementwise by a
non-empty back block, and the front block's mean equals the whole list's mean,
then every element equals that mean. -/
theorem allEqual_of_mean_front_eq {p s : List ℚ} (hpne : p ≠ []) (hsne : s ≠ [])
    (hdom : ∀ a ∈ p, ∀ c ∈ s, a ≤ c)
    (heq : lmean p = lmean (p ++ s)) :
    ∀ x ∈ p ++ s, x = lmean (p ++ s) := by
  have hpsne : p ++ s ≠ [] := by simp [hpne]
  have hsum : p.sum + s.sum = ((p.length : ℚ) + (s.length : ℚ))
      * lmean (p ++ s) := by
    have h := sum_eq_length_mul_mean hpsne
    rw [List.sum_append, List.length_append] at h
    push_cast at h
    exact h
  have hpsum : p.sum = (p.length : ℚ) * lmean (p ++ s) := by
    rw [sum_eq_length_mul_mean hpne, heq]
  have hssum : s.sum = (s.length : ℚ) * lmean (p ++ s) := by
    have h : s.sum = ((p.length : ℚ) + (s.length : ℚ)) * lmean (p ++ s)
        - (p.length : ℚ) * lmean (p ++ s) := by linarith
    rw [h]; ring
  have hmean_s : lmean s = lmean (p ++ s) := by
    rw [lmean, hssum, mul_div_cancel_left₀ _ (length_cast_ne_zero hsne)]
  -- every element of the front is at most the mean
  have hple : ∀ a ∈ p, a ≤ lmean (p ++ s) := by
    intro a ha
    calc a ≤ lmean s := le_mean_of_forall_le hsne (fun c hc => hdom a ha c hc)
    _ = lmean (p ++ s) := hmean_s
  -- every element of the back is at least the mean
  have hsge : ∀ c ∈ s, lmean (p ++ s) ≤ c := by
    intro c hc
    calc lmean (p ++ s) = lmean p := heq.symm
    _ ≤ c := mean_le_of_forall_le hpne (fun a ha => hdom a ha c hc)
  have hpeq := all_eq_mean_of_le hpne hple heq
  have hseq := all_eq_mean_of_ge hsne hsge hmean_s
  intro x hx
  rcases List.mem_append.1 hx with hxp | hxs
  · exact hpeq x hxp
  · exact hseq x hxs

/-- On sorted, non-constant data, the mean of a proper non-empty sorted front
block `take b` (with `1 ≤ b < n`) differs from the global mean. -/
theorem lmean_take_ne {vals : List ℚ} (hsorted : List.Sorted (· ≤ ·) vals)
    {x y : ℚ} (hx : x ∈ vals) (hy : y ∈ vals) (hxy : x ≠ y)
    {b : ℕ} (hb1 : 1 ≤ b) (hbn : b < vals.length) :
    lmean (vals.take b) ≠ lmean vals := by
  intro heq
  have hps : vals.take b ++ vals.drop b = vals := List.take_append_drop b vals
  have hpne : vals.take b ≠ [] := by
    intro h
    have h2 := congrArg List.length h
    rw [List.length_take, List.length_nil] at h2
    omega
  have hsne : vals.drop b ≠ [] := by
    intro h
    have h2 := congrArg List.length h
    rw [List.length_drop, List.length_nil] at h2
    omega
  have hdom : ∀ a ∈ vals.take b, ∀ c ∈ vals.drop b, a ≤ c := by
    have h2 := hsorted
    rw [← hps] at h2
    exact (List.pairwise_append.1 h2).2.2
  have heq2 : lmean (vals.take b) = lmean (vals.take b ++ vals.drop b) := by
    rw [hps]; exact heq
  have hall := allEqual_of_mean_front_eq hpne hsne hdom heq2
  rw [hps] at hall
  exact hxy ((hall x hx).trans (hall y hy).symm)

/-! ### The ANOVA inequality: within-partition SSD is below the global SSD -/

theorem take_drop_append_drop {vals : List ℚ} {lo b : ℕ} (hlob : lo ≤ b)
    (hbn : b ≤ vals.length) :
    (vals.take b).drop lo ++ vals.drop b = vals.drop lo := by
  conv_rhs => rw [← List.take_append_drop b vals]
  rw [List.drop_append_of_le_length]
  rw [List.length_take]
  omega

theorem jenksPartitions_flatten (vals : List ℚ) :
    ∀ (bs : List ℕ) (lo : ℕ), List.Chain (· ≤ ·) lo bs →
      (∀ b ∈ bs, b ≤ vals.length) →
      (jenksPartitions vals lo bs).flatten = vals.drop lo := by
  intro bs
  induction bs with
  | nil =>
    intro lo _ _
    simp [jenksPartitions]
  | cons b bs ih =>
    intro lo hchain hb
    rw [List.chain_cons] at hchain
    show ((vals.take b).drop lo :: jenksPartitions vals b bs).flatten = _
    rw [List.flatten_cons,
      ih b hchain.2 (fun x hx => hb x (List.mem_cons_of_mem b hx))]
    exact take_drop_append_drop hchain.1 (hb b (List.mem_cons_self b bs))

theorem sum_ssd_le_ssd_flatten (c : ℚ) (L : List (List ℚ)) :
    (L.map (fun p => ssdAbout p (lmean p))).sum ≤ ssdAbout L.flatten c := by
  induction L with
  | nil => simp [ssdAbout]
  | cons p L ih =>
    rw [List.map_cons, List.sum_cons, List.flatten_cons, ssdAbout_append]
    exact add_le_add (ssdAbout_mean_le p c) ih

theorem tssd_lt_gssd {vals : List ℚ} (hsorted : List.Sorted (· ≤ ·) vals)
    {x y : ℚ} (hx : x ∈ vals) (hy : y ∈ vals) (hxy : x ≠ y)
    {b : ℕ} {bs : List ℕ} (hchain : List.Chain (· ≤ ·) b bs)
    (hble : ∀ v ∈ bs, v ≤ vals.length) (hb1 : 1 ≤ b)
    (hbn : b < vals.length) :
    ((jenksPartitions vals 0 (b :: bs)).map
        (fun p => ssdAbout p (lmean p))).sum
      < ssdAbout vals (lmean vals) := by
  have hpart : jenksPartitions vals 0 (b :: bs)
      = vals.take b :: jenksPartitions vals b bs := by
    show (vals.take b).drop 0 :: _ = _
    rw [List.drop_zero]
  rw [hpart, List.map_cons, List.sum_cons]
  have hpne : vals.take b ≠ [] := by
    intro h
    have h2 := congrArg List.length h
    rw [List.length_take, List.length_nil] at h2
    omega
  have h1 : ssdAbout (vals.take b) (lmean (vals.take b))
      < ssdAbout (vals.take b) (lmean vals) :=
    ssdAbout_mean_lt _ hpne _ (lmean_take_ne hsorted hx hy hxy hb1 hbn)
  have h2 : ((jenksPartitions vals b bs).map
      (fun p => ssdAbout p (lmean p))).sum
      ≤ ssdAbout (vals.drop b) (lmean vals) := by
    have hj := jenksPartitions_flatten vals bs b hchain hble
    calc ((jenksPartitions vals b bs).map (fun p => ssdAbout p (lmean p))).sum
        ≤ ssdAbout (jenksPartitions vals b bs).flatten (lmean vals) :=
          sum_ssd_le_ssd_flatten _ _
    _ = ssdAbout (vals.drop b) (lmean vals) := by rw [hj]
  have h3 : ssdAbout (vals.take b) (lmean vals)
      + ssdAbout (vals.drop b) (lmean vals) = ssdAbout vals (lmean vals) := by
    rw [← ssdAbout_append, List.take_append_drop]
  linarith

/-- For non-constant sorted data and any non-empty strictly-ascending break
list with indices in `[1, n)`, the candidate's GVF score is strictly
positive — this is what forces the first loop iteration to replace the
all-zeros `best_breaks`. -/
theorem calc_gvf_pos {vals : List ℚ} (hsorted : List.Sorted (· ≤ ·) vals)
    {x y : ℚ} (hx : x ∈ vals) (hy : y ∈ vals) (hxy : x ≠ y)
    {r : List ℕ} (hrne : r ≠ []) (hrsort : List.Sorted (· < ·) r)
    (hrbound : ∀ v ∈ r, 1 ≤ v ∧ v < vals.length) :
    0 < calc_gvf r vals (calc_gssd vals) := by
  obtain ⟨b, bs, rfl⟩ := List.exists_cons_of_ne_nil hrne
  rw [calc_gvf_eq_spec_of_bounds _ _ _
    (fun v hv => le_of_lt (hrbound v hv).2)]
  have hchain : List.Chain (· ≤ ·) b bs := by
    have h1 : List.Chain (· < ·) b bs :=
      (List.chain_iff_pairwise).2 hrsort
    exact List.Chain.imp (fun _ _ h => le_of_lt h) h1
  have hble : ∀ v ∈ bs, v ≤ vals.length := fun v hv =>
    le_of_lt (hrbound v (List.mem_cons_of_mem b hv)).2
  have hb1 : 1 ≤ b := (hrbound b (List.mem_cons_self b bs)).1
  have hbn : b < vals.length := (hrbound b (List.mem_cons_self b bs)).2
  have htlt := tssd_lt_gssd hsorted hx hy hxy hchain hble hb1 hbn
  have hpos : 0 < ssdAbout vals (lmean vals) := ssdAbout_pos_of_two_ne hx hy hxy
  have hnn : 0 ≤ ((jenksPartitions vals 0 (b :: bs)).map
      (fun p => ssdAbout p (lmean p))).sum := by
    apply List.sum_nonneg
    intro w hw
    obtain ⟨p, _, rfl⟩ := List.mem_map.1 hw
    exact ssdAbout_nonneg p (lmean p)
  have hgssd : calc_gssd vals = ssdAbout vals (lmean vals) := rfl
  unfold calc_gvf_spec
  rw [hgssd]
  have hdiv : ((jenksPartitions vals 0 (b :: bs)).map
      (fun p => ssdAbout p (lmean p))).sum / ssdAbout vals (lmean vals)
      < 1 := (div_lt_one hpos).2 htlt
  linarith

/-! ### Sorted data, dedup and index lookups (towards C2) -/

theorem dedup_sorted_lt {vals : List ℚ} (hs : List.Sorted (· ≤ ·) vals) :
    List.Sorted (· < ·) vals.dedup := by
  have h1 : List.Sorted (· ≤ ·) vals.dedup :=
    hs.sublist (List.dedup_sublist vals)
  have h2 : vals.dedup.Pairwise (· ≠ ·) := List.nodup_dedup vals
  exact (h1.and h2).imp (fun h => lt_of_le_of_ne h.1 h.2)

theorem get_zero_min {vals : List ℚ} (hs : List.Sorted (· ≤ ·) vals)
    {x : ℚ} (hx : x ∈ vals) (h0 : 0 < vals.length) :
    vals.get ⟨0, h0⟩ ≤ x := by
  obtain ⟨i, rfl⟩ := List.mem_iff_get.1 hx
  rcases Nat.eq_zero_or_pos i.1 with h | h
  · have he : (⟨0, h0⟩ : Fin vals.length) = i := Fin.ext h.symm
    rw [he]
  · exact List.pairwise_iff_get.1 hs ⟨0, h0⟩ i h

theorem indexOf_lt_of_lt {vals : List ℚ} (hs : List.Sorted (· ≤ ·) vals)
    {v w : ℚ} (hv : v ∈ vals) (hw : w ∈ vals) (hvw : v < w) :
    vals.indexOf v < vals.indexOf w := by
  by_contra hle
  push_neg at hle
  have hiv : vals.indexOf v < vals.length := List.indexOf_lt_length.2 hv
  have hiw : vals.indexOf w < vals.length := List.indexOf_lt_length.2 hw
  have hgv : vals.get ⟨vals.indexOf v, hiv⟩ = v := List.indexOf_get hiv
  have hgw : vals.get ⟨vals.indexOf w, hiw⟩ = w := List.indexOf_get hiw
  rcases eq_or_lt_of_le hle with heq | hlt
  · have hwv : w = v := by
      rw [← hgv, ← hgw]
      congr 1
      exact Fin.ext heq
    exact absurd hwv.symm (ne_of_lt hvw)
  · have hpw := List.pairwise_iff_get.1 hs ⟨vals.indexOf w, hiw⟩
      ⟨vals.indexOf v, hiv⟩ hlt
    rw [hgv, hgw] at hpw
    exact absurd hvw (not_lt.2 hpw)

theorem getD_indexOf {vals : List ℚ} {v : ℚ} (hv : v ∈ vals) :
    vals.getD (vals.indexOf v) 0 = v := by
  have h : vals.indexOf v < vals.length := List.indexOf_lt_length.2 hv
  rw [List.getD_eq_getElem _ _ h]
  exact List.getElem_indexOf h

theorem uvm_getD {vals : List ℚ} {u : ℕ} (hu : u < vals.dedup.length) :
    (create_unique_val_mapping vals).getD u ⟨0, 0, 0⟩
      = ⟨vals.dedup[u], vals.indexOf (vals.dedup[u]),
         vals.count (vals.dedup[u])⟩ := by
  unfold create_unique_val_mapping
  have hu' : u < (vals.dedup.map (fun v : ℚ =>
      (⟨v, vals.indexOf v, vals.count v⟩ : UniqueVal))).length := by
    rw [List.length_map]; exact hu
  rw [List.getD_eq_getElem _ _ hu', List.getElem_map]

theorem normal_break_eq {vals : List ℚ} {u : ℕ}
    (hu : u < vals.dedup.length) :
    ((create_unique_val_mapping vals).getD u ⟨0, 0, 0⟩).first_idx
      = vals.indexOf (vals.dedup[u]) := by
  rw [uvm_getD hu]

theorem indexOf_dedup_lt {vals : List ℚ} {u : ℕ}
    (hu : u < vals.dedup.length) :
    vals.indexOf (vals.dedup[u]) < vals.length :=
  List.indexOf_lt_length.2 (List.mem_dedup.1 (List.getElem_mem hu))

theorem indexOf_dedup_pos {vals : List ℚ} (hs : List.Sorted (· ≤ ·) vals)
    {u : ℕ} (hu : u < vals.dedup.length) (hu1 : 1 ≤ u) :
    1 ≤ vals.indexOf (vals.dedup[u]) := by
  by_contra h
  push_neg at h
  have h0 : vals.indexOf (vals.dedup[u]) = 0 := by omega
  have hmem : vals.dedup[u] ∈ vals :=
    List.mem_dedup.1 (List.getElem_mem hu)
  have hlen : vals.indexOf (vals.dedup[u]) < vals.length :=
    List.indexOf_lt_length.2 hmem
  have h0len : 0 < vals.length := by omega
  have hv0 : vals.get ⟨0, h0len⟩ = vals.dedup[u] := by
    have hg := List.indexOf_get hlen
    rw [← hg]
    congr 1
    exact Fin.ext h0.symm
  have h0d : 0 < vals.dedup.length := by omega
  have h0u : vals.dedup[0] < vals.dedup[u] :=
    List.pairwise_iff_getElem.1 (dedup_sorted_lt hs) 0 u h0d hu hu1
  have hd0mem : vals.dedup[0] ∈ vals :=
    List.mem_dedup.1 (List.getElem_mem h0d)
  have hmin := get_zero_min hs hd0mem h0len
  rw [hv0] at hmin
  exact absurd h0u (not_lt.2 hmin)

theorem validSample_sorted_bounds {vals : List ℚ}
    (hs : List.Sorted (· ≤ ·) vals) {breaks : List ℕ}
    (hv : validSample vals breaks) :
    List.Sorted (· < ·) breaks ∧ ∀ v ∈ breaks, 1 ≤ v ∧ v < vals.length := by
  obtain ⟨us, hsort, hbound, rfl⟩ := hv
  constructor
  · unfold unique_to_normal_breaks
    refine List.pairwise_iff_getElem.2 ?_
    intro i j hi hj hij
    have hiu : i < us.length := by simpa using hi
    have hju : j < us.length := by simpa using hj
    rw [List.getElem_map, List.getElem_map]
    have hui := hbound _ (List.getElem_mem hiu)
    have huj := hbound _ (List.getElem_mem hju)
    rw [normal_break_eq hui.2, normal_break_eq huj.2]
    have husij : us[i] < us[j] :=
      List.pairwise_iff_getElem.1 hsort i j hiu hju hij
    have hdij : vals.dedup[us[i]] < vals.dedup[us[j]] :=
      List.pairwise_iff_getElem.1 (dedup_sorted_lt hs) _ _ hui.2 huj.2 husij
    exact indexOf_lt_of_lt hs (List.mem_dedup.1 (List.getElem_mem hui.2))
      (List.mem_dedup.1 (List.getElem_mem huj.2)) hdij
  · intro v hvv
    obtain ⟨u, hu, rfl⟩ := List.mem_map.1 hvv
    have hb := hbound u hu
    rw [normal_break_eq hb.2]
    exact ⟨indexOf_dedup_pos hs hb.2 hb.1, indexOf_dedup_lt hb.2⟩

theorem validSample_values {vals : List ℚ} (hs : List.Sorted (· ≤ ·) vals)
    {breaks : List ℕ} (hv : validSample vals breaks) :
    List.Sorted (· < ·) (breaks.map (fun b => vals.getD b 0)) ∧
      ∀ w ∈ breaks.map (fun b => vals.getD b 0), w ∈ vals := by
  obtain ⟨us, hsort, hbound, rfl⟩ := hv
  constructor
  · unfold unique_to_normal_breaks
    refine List.pairwise_iff_getElem.2 ?_
    intro i j hi hj hij
    have hiu : i < us.length := by simpa using hi
    have hju : j < us.length := by simpa using hj
    rw [List.getElem_map, List.getElem_map, List.getElem_map,
      List.getElem_map]
    have hui := hbound _ (List.getElem_mem hiu)
    have huj := hbound _ (List.getElem_mem hju)
    rw [normal_break_eq hui.2, normal_break_eq huj.2,
      getD_indexOf (List.mem_dedup.1 (List.getElem_mem hui.2)),
      getD_indexOf (List.mem_dedup.1 (List.getElem_mem huj.2))]
    have husij : us[i] < us[j] :=
      List.pairwise_iff_getElem.1 hsort i j hiu hju hij
    exact List.pairwise_iff_getElem.1 (dedup_sorted_lt hs) _ _
      hui.2 huj.2 husij
  · intro w hw
    obtain ⟨b, hb, rfl⟩ := List.mem_map.1 hw
    obtain ⟨u, hu, rfl⟩ := List.mem_map.1 hb
    have hb2 := hbound u hu
    rw [normal_break_eq hb2.2,
      getD_indexOf (List.mem_dedup.1 (List.getElem_mem hb2.2))]
    exact List.mem_dedup.1 (List.getElem_mem hb2.2)

/-! ### Validity of the kept break set through the search loop (C2) -/

theorem uvm_length (vals : List ℚ) :
    (create_unique_val_mapping vals).length = vals.dedup.length := by
  unfold create_unique_val_mapping
  rw [List.length_map]

theorem jenksStep_valid {rng : Rng} {vals : List ℚ} {fuel : ℕ}
    {s s' : JenksState}
    (hnuv1 : 1 ≤ vals.dedup.length)
    (hlen_u : s.unique_rand_breaks.length ≤ vals.dedup.length - 1)
    (hlen_b : s.best_breaks.length = s.unique_rand_breaks.length)
    (hst : jenksStep rng (create_unique_val_mapping vals).length
      (create_unique_val_mapping vals) vals (calc_gssd vals) fuel s
        = .ok s') :
    (validSample vals s'.best_breaks ∨ s'.best_breaks = s.best_breaks)
    ∧ (s.max_gvf = 0 → 1 ≤ s.unique_rand_breaks.length →
        (∃ x ∈ vals, ∃ y ∈ vals, x ≠ y) → List.Sorted (· ≤ ·) vals →
        validSample vals s'.best_breaks) := by
  cases hp : pick_rand_breaks s.unique_rand_breaks
      (create_unique_val_mapping vals).length rng fuel s.rng_ix with
  | error e =>
    rw [jenksStep_of_pick_error hp] at hst
    exact absurd hst (by simp)
  | ok p =>
    obtain ⟨u, j⟩ := p
    rw [jenksStep_of_pick_ok hp] at hst
    have hspec := pick_rand_breaks_ok_spec
      (by rw [uvm_length]; exact hnuv1)
      (by rw [uvm_length]; exact hlen_u) hp
    have hvr : validSample vals
        (unique_to_normal_breaks u (create_unique_val_mapping vals)) :=
      ⟨u, hspec.2.1,
        fun x hx => by
          have hb := hspec.2.2 x hx
          rw [uvm_length] at hb
          exact hb, rfl⟩
    have hrand_len : (unique_to_normal_breaks u
        (create_unique_val_mapping vals)).length
        = s.unique_rand_breaks.length := by
      unfold unique_to_normal_breaks
      rw [List.length_map, hspec.1]
    by_cases hgt : calc_gvf
        (unique_to_normal_breaks u (create_unique_val_mapping vals)) vals
        (calc_gssd vals) > s.max_gvf
    · rw [if_pos hgt] at hst
      obtain rfl := Except.ok.inj hst
      have hbest : (unique_to_normal_breaks u
            (create_unique_val_mapping vals))
          ++ s.best_breaks.drop (unique_to_normal_breaks u
            (create_unique_val_mapping vals)).length
          = unique_to_normal_breaks u (create_unique_val_mapping vals) := by
        rw [hrand_len, ← hlen_b, List.drop_length, List.append_nil]
      refine ⟨Or.inl ?_, fun _ _ _ _ => ?_⟩
      · show validSample vals ((unique_to_normal_breaks u _)
          ++ s.best_breaks.drop _)
        rw [hbest]
        exact hvr
      · show validSample vals ((unique_to_normal_breaks u _)
          ++ s.best_breaks.drop _)
        rw [hbest]
        exact hvr
    · rw [if_neg hgt] at hst
      obtain rfl := Except.ok.inj hst
      refine ⟨Or.inr rfl, ?_⟩
      intro hmax hlen1 hnc hsorted
      obtain ⟨x, hx, y, hy, hxy⟩ := hnc
      have hrne : unique_to_normal_breaks u
          (create_unique_val_mapping vals) ≠ [] := by
        intro hc
        have := congrArg List.length hc
        rw [hrand_len, List.length_nil] at this
        omega
      obtain ⟨hrs, hrb⟩ := validSample_sorted_bounds hsorted hvr
      have hpos := calc_gvf_pos hsorted hx hy hxy hrne hrs hrb
      rw [hmax] at hgt
      exact absurd hpos hgt

theorem jenksLoop_valid {rng : Rng} {vals : List ℚ} {fuel : ℕ} {m : ℕ}
    (hnuv1 : 1 ≤ vals.dedup.length) (hm : m ≤ vals.dedup.length - 1) :
    ∀ {k : ℕ} {s s' : JenksState},
      jenksLoop rng (create_unique_val_mapping vals).length
        (create_unique_val_mapping vals) vals (calc_gssd vals) fuel k s
        = .ok s' →
      s.unique_rand_breaks.length = m → s.best_breaks.length = m →
      validSample vals s.best_breaks →
      validSample vals s'.best_breaks := by
  intro k
  induction k with
  | zero =>
    intro s s' h h1 h2 hv
    rw [jenksLoop_zero] at h
    obtain rfl := Except.ok.inj h
    exact hv
  | succ k ih =>
    intro s s' h h1 h2 hv
    cases hst : jenksStep rng (create_unique_val_mapping vals).length
        (create_unique_val_mapping vals) vals (calc_gssd vals) fuel s with
    | error e =>
      rw [jenksLoop_succ_error hst] at h
      exact absurd h (by simp)
    | ok s2 =>
      rw [jenksLoop_succ_ok hst] at h
      have hstv := jenksStep_valid hnuv1 (by omega) (h2.trans h1.symm) hst
      have hv2 : validSample vals s2.best_breaks := by
        rcases hstv.1 with hval | heq
        · exact hval
        · rw [heq]; exact hv
      obtain ⟨hu2, hb2⟩ := jenksStep_inv hst h1 h2
      exact ih h hu2 hb2 hv2

/-- C2: every break value returned by a successful `get_jenks_breaks` run
(non-empty data, `num_bins ≥ 1`) is a member of the input dataset, and the
returned sequence is strictly increasing. -/
theorem C2_get_jenks_breaks_members_sorted (num_bins : ℕ) (data : List ℚ)
    (rng : Rng) (fuel : ℕ) (bs : List ℚ) (hnb : 1 ≤ num_bins)
    (hne : data ≠ [])
    (hok : get_jenks_breaks num_bins data rng fuel = .ok bs) :
    (∀ v ∈ bs, v ∈ data) ∧ List.Sorted (· < ·) bs := by
  obtain ⟨s', hrun, hbs⟩ := except_map_ok _ _ _ hok
  rw [jenksRun_def] at hrun
  have hsorted : List.Sorted (· ≤ ·) (jenksSorted data) :=
    List.sorted_insertionSort _ data
  by_cases hz : min (create_unique_val_mapping (jenksSorted data)).length
      num_bins - 1 = 0
  · have hinv := jenksLoop_inv hrun
      (List.length_replicate _ _ :
        (jenksInitState _).unique_rand_breaks.length = _)
      (List.length_replicate _ _ : (jenksInitState _).best_breaks.length = _)
    have hb0 : s'.best_breaks = [] := by
      rw [← List.length_eq_zero, hinv.2, hz]
    rw [hbs, hb0]
    exact ⟨fun v hv => absurd hv (List.not_mem_nil v), List.sorted_nil⟩
  · have hm1 : 1 ≤ min (create_unique_val_mapping (jenksSorted data)).length
        num_bins - 1 := by omega
    have hnuv2 : 2 ≤ (create_unique_val_mapping (jenksSorted data)).length := by
      have h2 := Nat.min_le_left
        (create_unique_val_mapping (jenksSorted data)).length num_bins
      omega
    have hddlen : 2 ≤ (jenksSorted data).dedup.length := by
      rw [← uvm_length]; exact hnuv2
    have hd0 : 0 < (jenksSorted data).dedup.length := by omega
    have hd1 : 1 < (jenksSorted data).dedup.length := by omega
    have h01 : (jenksSorted data).dedup[0] < (jenksSorted data).dedup[1] :=
      List.pairwise_iff_getElem.1 (dedup_sorted_lt hsorted) 0 1 hd0 hd1
        (by omega)
    have hnc : ∃ x ∈ jenksSorted data, ∃ y ∈ jenksSorted data, x ≠ y :=
      ⟨_, List.mem_dedup.1 (List.getElem_mem hd0),
       _, List.mem_dedup.1 (List.getElem_mem hd1), ne_of_lt h01⟩
    obtain ⟨k', hk⟩ : ∃ k', permutationsFor data.length = k' + 1 :=
      ⟨permutationsFor data.length - 1, by
        have := permutationsFor_pos data.length
        omega⟩
    rw [hk] at hrun
    have hmle : min (create_unique_val_mapping (jenksSorted data)).length
        num_bins - 1 ≤ (jenksSorted data).dedup.length - 1 := by
      have h2 := Nat.min_le_left
        (create_unique_val_mapping (jenksSorted data)).length num_bins
      rw [← uvm_length]
      omega
    cases hst : jenksStep rng
        (create_unique_val_mapping (jenksSorted data)).length
        (create_unique_val_mapping (jenksSorted data)) (jenksSorted data)
        (calc_gssd (jenksSorted data)) fuel
        (jenksInitState
          (min (create_unique_val_mapping (jenksSorted data)).length
            num_bins - 1)) with
    | error e =>
      rw [jenksLoop_succ_error hst] at hrun
      exact absurd hrun (by simp)
    | ok s1 =>
      rw [jenksLoop_succ_ok hst] at hrun
      have hstv := jenksStep_valid (by omega)
        (by simp only [jenksInitState, List.length_replicate]; exact hmle)
        (by simp only [jenksInitState, List.length_replicate]) hst
      have hv1 : validSample (jenksSorted data) s1.best_breaks :=
        hstv.2 rfl
          (by simp only [jenksInitState, List.length_replicate]; exact hm1)
          hnc hsorted
      obtain ⟨hu1, hb1⟩ := jenksStep_inv hst
        (List.length_replicate _ _) (List.length_replicate _ _)
      have hnuv1 : 1 ≤ (jenksSorted data).dedup.length := by omega
      have hv' := jenksLoop_valid hnuv1 hmle hrun hu1 hb1 hv1
      obtain ⟨hsv, hmem⟩ := validSample_values hsorted hv'
      rw [hbs]
      exact ⟨fun v hv => mem_jenksSorted.1 (hmem v hv), hsv⟩

theorem C2_get_jenks_breaks_members_sorted_witness :
    (∀ v ∈ ([] : List ℚ), v ∈ [(5 : ℚ), 5]) ∧
      List.Sorted (· < ·) ([] : List ℚ) := by
  have hok : get_jenks_breaks 2 [(5 : ℚ), 5] (fun _ => 0) 0 = .ok [] := by
    obtain ⟨s', hrun, hb', ha'⟩ := jenksRun_allEqual 2 [(5 : ℚ), 5]
      (fun _ => 0) 0 (by decide) (by decide) (by decide)
    unfold get_jenks_breaks
    rw [hrun, except_map_ok_eq, hb']
    rfl
  exact C2_get_jenks_breaks_members_sorted 2 [(5 : ℚ), 5] (fun _ => 0) 0 []
    (by decide) (by decide) hok

end Classify
